import Mathlib

/-!
Verification of the inventory view-conversion layer of
k8s-container-image-promoter (`lib/dockerregistry/types.go`, package
`inventory`).

Go maps are embedded as association lists (`List (K × V)`): one list
represents one Go map together with one particular iteration order.  The Go
statement `m[k] = v` is embedded as `mapInsert`, which overwrites the value
at an existing key and otherwise appends the new binding.  A list represents
an actual Go map exactly when its keys are pairwise distinct (`Nodup`); the
theorems that need this invariant carry it as a hypothesis.
-/

namespace Inventory

/-- `RegistryName` is the leading part of an image name that includes the
domain (Go: `type RegistryName string`). -/
abbrev RegistryName := String

/-- `ImageName` (Go: `type ImageName string`). -/
abbrev ImageName := String

/-- `Digest` is the SHA256 hash of an image (Go: `type Digest string`). -/
abbrev Digest := String

/-- `Tag` is a Docker tag (Go: `type Tag string`). -/
abbrev Tag := String

/-- `TagSlice` is a slice of Tags (Go: `type TagSlice []Tag`). -/
abbrev TagSlice := List Tag

/-- `DigestTags` maps each digest to a TagSlice (Go:
`type DigestTags map[Digest]TagSlice`). -/
abbrev DigestTags := List (Digest × TagSlice)

/-- `ImageTag` is a combination of the ImageName and Tag (Go struct). -/
structure ImageTag where
  ImageName : ImageName
  Tag : Tag
  deriving DecidableEq, Repr

/-- `ImageDigest` is a combination of the ImageName and Digest (Go struct). -/
structure ImageDigest where
  ImageName : ImageName
  Digest : Digest
  deriving DecidableEq, Repr

/-- `RegInvImage` maps image names to digest-to-tags mappings (Go:
`type RegInvImage map[ImageName]DigestTags`). -/
abbrev RegInvImage := List (ImageName × DigestTags)

/-- `RegInvImageTag` is keyed by an ImageTag (Go:
`type RegInvImageTag map[ImageTag]Digest`). -/
abbrev RegInvImageTag := List (ImageTag × Digest)

/-- `RegInvImageDigest` is keyed by ImageDigest (Go:
`type RegInvImageDigest map[ImageDigest]TagSlice`). -/
abbrev RegInvImageDigest := List (ImageDigest × TagSlice)

/-- `RegistryNames` contains the source and destination registry names
(Go struct). -/
structure RegistryNames where
  Src : RegistryName
  Dest : RegistryName
  deriving DecidableEq, Repr

/-- `Image` holds the name of an image and its digest-to-tags map
(Go struct with fields `ImageName` and `Dmap`). -/
structure Image where
  ImageName : ImageName
  Dmap : DigestTags
  deriving DecidableEq, Repr

/-- `Manifest` stores the desired state of a Docker Registry (Go struct with
fields `Registries`, `ServiceAccount`, `Images`; `Images` is a slice). -/
structure Manifest where
  Registries : RegistryNames
  ServiceAccount : String
  Images : List Image
  deriving DecidableEq, Repr

/-- Embedding of the Go map-assignment statement `m[k] = v`: if the key is
already present its value is replaced in place, otherwise the binding is
appended at the end of the iteration order. -/
def mapInsert {K V : Type} [DecidableEq K] (k : K) (v : V) : List (K × V) → List (K × V)
  | [] => [(k, v)]
  | p :: rest => if p.1 = k then (k, v) :: rest else p :: mapInsert k v rest

/-- Embedding of the Go map read `m[k]` (the `v, ok := m[k]` form): the value
at key `k`, if present. -/
def mapLookup {K V : Type} [DecidableEq K] (k : K) : List (K × V) → Option V
  | [] => none
  | p :: rest => if p.1 = k then some p.2 else mapLookup k rest

/-- The keys of an embedded Go map, in iteration order. -/
def mapKeys {K V : Type} (l : List (K × V)) : List K :=
  l.map Prod.fst

/-- Go: `func (m Manifest) ToRegInvImageDigest() RegInvImageDigest`.
Builds a fresh map, inserting `(image.ImageName, digest) ↦ tagArray` for every
image of the manifest and every digest entry of its `Dmap`. -/
def Manifest.ToRegInvImageDigest (m : Manifest) : RegInvImageDigest :=
  m.Images.foldl
    (fun riid image =>
      image.Dmap.foldl
        (fun riid p => mapInsert (ImageDigest.mk image.ImageName p.1) p.2 riid)
        riid)
    []

/-- Go: `func (m Manifest) ToRegInvImageTag() RegInvImageTag`.
Builds a fresh map, inserting `(image.ImageName, tag) ↦ digest` for every
image, every digest entry, and every tag of that entry. -/
def Manifest.ToRegInvImageTag (m : Manifest) : RegInvImageTag :=
  m.Images.foldl
    (fun riit image =>
      image.Dmap.foldl
        (fun riit p =>
          p.2.foldl
            (fun riit tag => mapInsert (ImageTag.mk image.ImageName tag) p.1 riit)
            riit)
        riit)
    []

/-- Go: `func (ri RegInvImage) ToRegInvImageDigest() RegInvImageDigest`. -/
def RegInvImage.ToRegInvImageDigest (ri : RegInvImage) : RegInvImageDigest :=
  ri.foldl
    (fun riid q =>
      q.2.foldl
        (fun riid p => mapInsert (ImageDigest.mk q.1 p.1) p.2 riid)
        riid)
    []

/-- Go: `func (ri RegInvImage) ToRegInvImageTag() RegInvImageTag`. -/
def RegInvImage.ToRegInvImageTag (ri : RegInvImage) : RegInvImageTag :=
  ri.foldl
    (fun riit q =>
      q.2.foldl
        (fun riit p =>
          p.2.foldl
            (fun riit tag => mapInsert (ImageTag.mk q.1 tag) p.1 riit)
            riit)
        riit)
    []

/-- Go: `func (riid RegInvImageDigest) ToRegInvImageTag() RegInvImageTag`. -/
def RegInvImageDigest.ToRegInvImageTag (riid : RegInvImageDigest) : RegInvImageTag :=
  riid.foldl
    (fun riit q =>
      q.2.foldl
        (fun riit tag => mapInsert (ImageTag.mk q.1.ImageName tag) q.1.Digest riit)
        riit)
    []

/-! ### Basic lemmas about the embedded Go map operations -/

section MapLemmas

variable {K V : Type} [DecidableEq K]

@[simp]
theorem mapKeys_nil : mapKeys ([] : List (K × V)) = [] := rfl

@[simp]
theorem mapKeys_cons (p : K × V) (l : List (K × V)) :
    mapKeys (p :: l) = p.1 :: mapKeys l := rfl

@[simp]
theorem mapKeys_append (l₁ l₂ : List (K × V)) :
    mapKeys (l₁ ++ l₂) = mapKeys l₁ ++ mapKeys l₂ := by
  simp [mapKeys]

theorem mem_mapKeys (a : K) (l : List (K × V)) :
    a ∈ mapKeys l ↔ ∃ v, (a, v) ∈ l := by
  constructor
  · intro h
    rcases List.mem_map.mp h with ⟨p, hp, hpa⟩
    exact ⟨p.2, by rwa [show (a, p.2) = p from by rw [← hpa]]⟩
  · rintro ⟨v, hv⟩
    simpa [mapKeys] using List.mem_map_of_mem Prod.fst hv

theorem mapLookup_mapInsert_self (k : K) (v : V) (l : List (K × V)) :
    mapLookup k (mapInsert k v l) = some v := by
  induction l with
  | nil => simp [mapInsert, mapLookup]
  | cons p rest ih =>
    by_cases h : p.1 = k
    · simp [mapInsert, h, mapLookup]
    · simp [mapInsert, h, mapLookup, ih]

theorem mapLookup_mapInsert_ne (a k : K) (v : V) (l : List (K × V)) (h : a ≠ k) :
    mapLookup a (mapInsert k v l) = mapLookup a l := by
  have hk : k ≠ a := Ne.symm h
  induction l with
  | nil => simp [mapInsert, mapLookup, hk]
  | cons p rest ih =>
    by_cases hp : p.1 = k
    · subst hp
      simp [mapInsert, mapLookup, hk]
    · simp [mapInsert, hp, mapLookup, ih]

theorem mem_mapKeys_mapInsert (a k : K) (v : V) (l : List (K × V)) :
    a ∈ mapKeys (mapInsert k v l) ↔ a = k ∨ a ∈ mapKeys l := by
  induction l with
  | nil => simp [mapInsert]
  | cons p rest ih =>
    by_cases h : p.1 = k
    · subst h
      simp [mapInsert]
    · rw [mapInsert, if_neg h, mapKeys_cons, List.mem_cons, ih, mapKeys_cons,
        List.mem_cons]
      tauto

theorem nodup_mapKeys_mapInsert (k : K) (v : V) (l : List (K × V))
    (h : (mapKeys l).Nodup) : (mapKeys (mapInsert k v l)).Nodup := by
  induction l with
  | nil => simp [mapInsert]
  | cons p rest ih =>
    rw [mapKeys_cons, List.nodup_cons] at h
    by_cases hp : p.1 = k
    · subst hp
      simp [mapInsert]
      exact ⟨h.1, h.2⟩
    · rw [mapInsert, if_neg hp, mapKeys_cons, List.nodup_cons]
      refine ⟨?KK, ih h.2⟩
      rw [mem_mapKeys_mapInsert]
      rintro (hk | hk)
      · exact hp hk
      · exact h.1 hk

theorem mapInsert_not_mem (k : K) (v : V) (l : List (K × V))
    (h : k ∉ mapKeys l) : mapInsert k v l = l ++ [(k, v)] := by
  induction l with
  | nil => simp [mapInsert]
  | cons p rest ih =>
    rw [mapKeys_cons, List.mem_cons] at h
    push_neg at h
    simp [mapInsert, Ne.symm h.1, ih h.2]

theorem mapLookup_of_mem_nodup (k : K) (v : V) (l : List (K × V))
    (hnd : (mapKeys l).Nodup) (hmem : (k, v) ∈ l) : mapLookup k l = some v := by
  induction l with
  | nil => simp at hmem
  | cons p rest ih =>
    rw [mapKeys_cons, List.nodup_cons] at hnd
    rcases List.mem_cons.mp hmem with h | h
    · subst h
      simp [mapLookup]
    · have hk : p.1 ≠ k := by
        intro hh
        exact hnd.1 ((mem_mapKeys k rest).mpr ⟨v, h⟩ |> (hh ▸ ·))
      simp [mapLookup, hk, ih hnd.2 h]

theorem mapLookup_isSome_iff_mem_mapKeys (k : K) (l : List (K × V)) :
    (mapLookup k l).isSome ↔ k ∈ mapKeys l := by
  induction l with
  | nil => simp [mapLookup]
  | cons p rest ih =>
    by_cases h : p.1 = k
    · simp [mapLookup, h]
    · simp [mapLookup, h, ih, Ne.symm h]

/-- Folding the Go insertion statement over a list of bindings, from an
arbitrary accumulator map.  Every conversion function of the source is an
instance of this fold over a flattened list of bindings. -/
def foldIns (acc : List (K × V)) (l : List (K × V)) : List (K × V) :=
  l.foldl (fun acc p => mapInsert p.1 p.2 acc) acc

theorem foldIns_nil_acc (acc : List (K × V)) : foldIns acc [] = acc := rfl

theorem foldIns_cons (acc : List (K × V)) (p : K × V) (l : List (K × V)) :
    foldIns acc (p :: l) = foldIns (mapInsert p.1 p.2 acc) l := rfl

theorem foldIns_append (acc : List (K × V)) (l₁ l₂ : List (K × V)) :
    foldIns acc (l₁ ++ l₂) = foldIns (foldIns acc l₁) l₂ := by
  simp [foldIns, List.foldl_append]

theorem foldIns_flatMap {A : Type} (acc : List (K × V)) (l : List A) (f : A → List (K × V)) :
    foldIns acc (l.flatMap f) = l.foldl (fun acc x => foldIns acc (f x)) acc := by
  induction l generalizing acc with
  | nil => rfl
  | cons a l ih => simp [List.flatMap_cons, foldIns_append, ih]

theorem mem_mapKeys_foldIns (a : K) (acc l : List (K × V)) :
    a ∈ mapKeys (foldIns acc l) ↔ a ∈ mapKeys acc ∨ a ∈ mapKeys l := by
  induction l generalizing acc with
  | nil => simp [foldIns]
  | cons p rest ih =>
    rw [foldIns_cons, ih, mem_mapKeys_mapInsert, mapKeys_cons, List.mem_cons]
    tauto

theorem nodup_mapKeys_foldIns (acc l : List (K × V)) (h : (mapKeys acc).Nodup) :
    (mapKeys (foldIns acc l)).Nodup := by
  induction l generalizing acc with
  | nil => simpa [foldIns]
  | cons p rest ih =>
    rw [foldIns_cons]
    exact ih _ (nodup_mapKeys_mapInsert _ _ _ h)

theorem foldIns_fresh (acc l : List (K × V)) (hnd : (mapKeys l).Nodup)
    (hdisj : ∀ k ∈ mapKeys l, k ∉ mapKeys acc) : foldIns acc l = acc ++ l := by
  induction l generalizing acc with
  | nil => simp [foldIns]
  | cons p rest ih =>
    rw [mapKeys_cons, List.nodup_cons] at hnd
    have hp : p.1 ∉ mapKeys acc := hdisj p.1 (by simp)
    rw [foldIns_cons, mapInsert_not_mem _ _ _ hp, ih _ hnd.2]
    · simp
    · intro k hk
      rw [mapKeys_append]
      simp only [List.mem_append]
      rintro (hacc | hsingle)
      · exact hdisj k (by simp [hk]) hacc
      · have : k = p.1 := by simpa [mapKeys] using hsingle
        subst this
        exact hnd.1 hk

theorem foldIns_nil_of_nodup (l : List (K × V)) (hnd : (mapKeys l).Nodup) :
    foldIns [] l = l := by
  simpa using foldIns_fresh [] l hnd (by simp [mapKeys])

theorem mapLookup_foldIns_mem (k : K) (v : V) (acc l : List (K × V))
    (h : mapLookup k (foldIns acc l) = some v) :
    (k, v) ∈ l ∨ mapLookup k acc = some v := by
  induction l generalizing acc with
  | nil => simpa [foldIns] using h
  | cons p rest ih =>
    rw [foldIns_cons] at h
    rcases ih _ h with h' | h'
    · exact Or.inl (List.mem_cons_of_mem _ h')
    · by_cases hk : k = p.1
      · subst hk
        rw [mapLookup_mapInsert_self] at h'
        left
        obtain rfl : v = p.2 := (Option.some.inj h').symm
        exact List.mem_cons_self _ _
      · right
        rwa [mapLookup_mapInsert_ne _ _ _ _ hk] at h'

end MapLemmas

/-! ### Flattened binding lists

Each conversion function of the source iterates nested maps and inserts one
binding per innermost step.  The following lists collect those bindings in
iteration order; every conversion is `foldIns []` of its list. -/

/-- The `(image, digest) ↦ tags` bindings inserted by
`RegInvImage.ToRegInvImageDigest`, in iteration order. -/
def riPairs (ri : RegInvImage) : List (ImageDigest × TagSlice) :=
  ri.flatMap (fun q => q.2.map (fun p => (ImageDigest.mk q.1 p.1, p.2)))

/-- The `(image, tag) ↦ digest` bindings inserted by
`RegInvImage.ToRegInvImageTag`, in iteration order. -/
def riTriples (ri : RegInvImage) : List (ImageTag × Digest) :=
  ri.flatMap (fun q => q.2.flatMap (fun p => p.2.map (fun t => (ImageTag.mk q.1 t, p.1))))

/-- The `(image, tag) ↦ digest` bindings inserted by
`RegInvImageDigest.ToRegInvImageTag`, in iteration order. -/
def riidTriples (riid : RegInvImageDigest) : List (ImageTag × Digest) :=
  riid.flatMap (fun q => q.2.map (fun t => (ImageTag.mk q.1.ImageName t, q.1.Digest)))

/-- The `(image, digest) ↦ tags` bindings inserted by
`Manifest.ToRegInvImageDigest`, in iteration order. -/
def mPairs (m : Manifest) : List (ImageDigest × TagSlice) :=
  m.Images.flatMap (fun image => image.Dmap.map (fun p => (ImageDigest.mk image.ImageName p.1, p.2)))

/-- The `(image, tag) ↦ digest` bindings inserted by
`Manifest.ToRegInvImageTag`, in iteration order. -/
def mTriples (m : Manifest) : List (ImageTag × Digest) :=
  m.Images.flatMap
    (fun image => image.Dmap.flatMap (fun p => p.2.map (fun t => (ImageTag.mk image.ImageName t, p.1))))

section Normalization

theorem digestIns_inner (i : ImageName) (dt : DigestTags) (acc : RegInvImageDigest) :
    dt.foldl (fun acc p => mapInsert (ImageDigest.mk i p.1) p.2 acc) acc
      = foldIns acc (dt.map (fun p => (ImageDigest.mk i p.1, p.2))) := by
  simp [foldIns, List.foldl_map]

theorem tagIns_inner (i : ImageName) (d : Digest) (ts : TagSlice) (acc : RegInvImageTag) :
    ts.foldl (fun acc t => mapInsert (ImageTag.mk i t) d acc) acc
      = foldIns acc (ts.map (fun t => (ImageTag.mk i t, d))) := by
  simp [foldIns, List.foldl_map]

theorem tagIns_mid (i : ImageName) (dt : DigestTags) (acc : RegInvImageTag) :
    dt.foldl
        (fun acc p => p.2.foldl (fun acc t => mapInsert (ImageTag.mk i t) p.1 acc) acc)
        acc
      = foldIns acc (dt.flatMap (fun p => p.2.map (fun t => (ImageTag.mk i t, p.1)))) := by
  induction dt generalizing acc with
  | nil => rfl
  | cons p rest ih =>
    rw [List.flatMap_cons, foldIns_append, ← tagIns_inner, List.foldl_cons, ih]

theorem toRegInvImageDigest_eq_foldIns (ri : RegInvImage) :
    ri.ToRegInvImageDigest = foldIns [] (riPairs ri) := by
  suffices h : ∀ acc : RegInvImageDigest,
      ri.foldl
          (fun riid q => q.2.foldl (fun riid p => mapInsert (ImageDigest.mk q.1 p.1) p.2 riid) riid)
          acc
        = foldIns acc (riPairs ri) by
    exact h []
  induction ri with
  | nil => intro acc; rfl
  | cons q rest ih =>
    intro acc
    rw [riPairs, List.flatMap_cons, foldIns_append, ← riPairs, List.foldl_cons, ← ih,
      digestIns_inner]

theorem toRegInvImageTag_eq_foldIns (ri : RegInvImage) :
    ri.ToRegInvImageTag = foldIns [] (riTriples ri) := by
  suffices h : ∀ acc : RegInvImageTag,
      ri.foldl
          (fun riit q =>
            q.2.foldl
              (fun riit p =>
                p.2.foldl (fun riit tag => mapInsert (ImageTag.mk q.1 tag) p.1 riit) riit)
              riit)
          acc
        = foldIns acc (riTriples ri) by
    exact h []
  induction ri with
  | nil => intro acc; rfl
  | cons q rest ih =>
    intro acc
    rw [riTriples, List.flatMap_cons, foldIns_append, ← riTriples, List.foldl_cons, ← ih,
      tagIns_mid]

theorem riidToRegInvImageTag_eq_foldIns (riid : RegInvImageDigest) :
    riid.ToRegInvImageTag = foldIns [] (riidTriples riid) := by
  suffices h : ∀ acc : RegInvImageTag,
      riid.foldl
          (fun riit q =>
            q.2.foldl (fun riit tag => mapInsert (ImageTag.mk q.1.ImageName tag) q.1.Digest riit)
              riit)
          acc
        = foldIns acc (riidTriples riid) by
    exact h []
  induction riid with
  | nil => intro acc; rfl
  | cons q rest ih =>
    intro acc
    rw [riidTriples, List.flatMap_cons, foldIns_append, ← riidTriples, List.foldl_cons, ← ih,
      tagIns_inner]

theorem manifestToRegInvImageDigest_eq_foldIns (m : Manifest) :
    m.ToRegInvImageDigest = foldIns [] (mPairs m) := by
  suffices h : ∀ acc : RegInvImageDigest,
      m.Images.foldl
          (fun riid image =>
            image.Dmap.foldl
              (fun riid p => mapInsert (ImageDigest.mk image.ImageName p.1) p.2 riid) riid)
          acc
        = foldIns acc (mPairs m) by
    exact h []
  unfold mPairs
  induction m.Images with
  | nil => intro acc; rfl
  | cons image rest ih =>
    intro acc
    rw [List.flatMap_cons, foldIns_append, List.foldl_cons, ← ih, digestIns_inner]

theorem manifestToRegInvImageTag_eq_foldIns (m : Manifest) :
    m.ToRegInvImageTag = foldIns [] (mTriples m) := by
  suffices h : ∀ acc : RegInvImageTag,
      m.Images.foldl
          (fun riit image =>
            image.Dmap.foldl
              (fun riit p =>
                p.2.foldl
                  (fun riit tag => mapInsert (ImageTag.mk image.ImageName tag) p.1 riit) riit)
              riit)
          acc
        = foldIns acc (mTriples m) by
    exact h []
  unfold mTriples
  induction m.Images with
  | nil => intro acc; rfl
  | cons image rest ih =>
    intro acc
    rw [List.flatMap_cons, foldIns_append, List.foldl_cons, ← ih, tagIns_mid]

end Normalization

/-! ### Structure of the flattened lists under the Go map invariant -/

section WellFormed

theorem imageName_of_mem_mapKeys_riPairs (a : ImageDigest) (ri : RegInvImage)
    (h : a ∈ mapKeys (riPairs ri)) : a.ImageName ∈ mapKeys ri := by
  rw [mem_mapKeys] at h
  obtain ⟨v, hv⟩ := h
  rw [riPairs, List.mem_flatMap] at hv
  obtain ⟨q, hq, hmem⟩ := hv
  rcases List.mem_map.mp hmem with ⟨p, _, hp⟩
  have : a.ImageName = q.1 := by
    rw [show a = ImageDigest.mk q.1 p.1 from by
      have := congrArg Prod.fst hp
      simpa using this.symm]
  rw [this]
  exact List.mem_map_of_mem Prod.fst hq

theorem nodup_mapKeys_riPairs (ri : RegInvImage)
    (hk : (mapKeys ri).Nodup) (hin : ∀ q ∈ ri, (mapKeys q.2).Nodup) :
    (mapKeys (riPairs ri)).Nodup := by
  induction ri with
  | nil => simp [riPairs]
  | cons q rest ih =>
    rw [mapKeys_cons, List.nodup_cons] at hk
    rw [riPairs, List.flatMap_cons, ← riPairs, mapKeys_append, List.nodup_append]
    refine ⟨?NA, ih hk.2 (fun r hr => hin r (List.mem_cons_of_mem _ hr)), ?ND⟩
    case NA =>
      have h2 := hin q (List.mem_cons_self _ _)
      rw [show mapKeys (q.2.map (fun p => (ImageDigest.mk q.1 p.1, p.2)))
            = (mapKeys q.2).map (ImageDigest.mk q.1) from by
        simp [mapKeys, Function.comp]]
      exact h2.map (fun a b hab => by simpa using congrArg ImageDigest.Digest hab)
    case ND =>
      intro a ha hb
      have hname : a.ImageName = q.1 := by
        rw [mapKeys, List.map_map] at ha
        rcases List.mem_map.mp ha with ⟨p, _, hp⟩
        rw [← hp]
        rfl
      exact hk.1 (hname ▸ imageName_of_mem_mapKeys_riPairs a rest hb)

theorem riidTriples_riPairs (ri : RegInvImage) :
    riidTriples (riPairs ri) = riTriples ri := by
  simp only [riidTriples, riPairs, riTriples, List.flatMap_assoc, List.flatMap_map]

theorem toRegInvImageDigest_eq_riPairs (ri : RegInvImage)
    (hk : (mapKeys ri).Nodup) (hin : ∀ q ∈ ri, (mapKeys q.2).Nodup) :
    ri.ToRegInvImageDigest = riPairs ri := by
  rw [toRegInvImageDigest_eq_foldIns,
    foldIns_nil_of_nodup _ (nodup_mapKeys_riPairs ri hk hin)]

theorem mapLookup_append {K V : Type} [DecidableEq K] (k : K) (l₁ l₂ : List (K × V)) :
    mapLookup k (l₁ ++ l₂)
      = match mapLookup k l₁ with
        | some v => some v
        | none => mapLookup k l₂ := by
  induction l₁ with
  | nil => simp [mapLookup]
  | cons p rest ih =>
    by_cases h : p.1 = k
    · simp [mapLookup, h]
    · simp [mapLookup, h, ih]

theorem mapLookup_eq_none_of_not_mem {K V : Type} [DecidableEq K] (k : K)
    (l : List (K × V)) (h : k ∉ mapKeys l) : mapLookup k l = none := by
  cases hopt : mapLookup k l with
  | none => rfl
  | some v =>
    exact absurd ((mapLookup_isSome_iff_mem_mapKeys k l).mp (by simp [hopt])) h

theorem mapLookup_digestBlock_same (i : ImageName) (d : Digest) (dt : DigestTags) :
    mapLookup (ImageDigest.mk i d) (dt.map (fun p => (ImageDigest.mk i p.1, p.2)))
      = mapLookup d dt := by
  induction dt with
  | nil => rfl
  | cons p ps ih =>
    by_cases hd : p.1 = d
    · simp [mapLookup, hd]
    · have hne : ImageDigest.mk i p.1 ≠ ImageDigest.mk i d := by
        intro hcon
        exact hd (by simpa using congrArg ImageDigest.Digest hcon)
      simp [mapLookup, hd, hne, ih]

theorem mapLookup_digestBlock_other (i j : ImageName) (d : Digest) (dt : DigestTags)
    (hij : j ≠ i) :
    mapLookup (ImageDigest.mk i d) (dt.map (fun p => (ImageDigest.mk j p.1, p.2)))
      = none := by
  induction dt with
  | nil => rfl
  | cons p ps ih =>
    have hne : ImageDigest.mk j p.1 ≠ ImageDigest.mk i d := by
      intro hcon
      exact hij (by simpa using congrArg ImageDigest.ImageName hcon)
    simp [mapLookup, hne, ih]

theorem mapLookup_riPairs_absent (i : ImageName) (d : Digest) (ri : RegInvImage)
    (h : i ∉ mapKeys ri) : mapLookup (ImageDigest.mk i d) (riPairs ri) = none := by
  apply mapLookup_eq_none_of_not_mem
  intro hmem
  exact h (imageName_of_mem_mapKeys_riPairs _ _ hmem)

/-- Lookup characterization of `RegInvImage.ToRegInvImageDigest` under the Go
map invariant: looking up `(i, d)` in the converted view is exactly the
two-level lookup `ri[i][d]` in the source. -/
theorem mapLookup_toRegInvImageDigest (ri : RegInvImage)
    (hk : (mapKeys ri).Nodup) (hin : ∀ q ∈ ri, (mapKeys q.2).Nodup)
    (i : ImageName) (d : Digest) :
    mapLookup (ImageDigest.mk i d) ri.ToRegInvImageDigest
      = (mapLookup i ri).bind (fun dt => mapLookup d dt) := by
  rw [toRegInvImageDigest_eq_riPairs ri hk hin]
  clear hin
  induction ri with
  | nil => simp [riPairs, mapLookup]
  | cons q rest ih =>
    rw [mapKeys_cons, List.nodup_cons] at hk
    have ihr := ih hk.2
    rw [riPairs, List.flatMap_cons, ← riPairs, mapLookup_append]
    by_cases hi : q.1 = i
    · subst hi
      rw [mapLookup_digestBlock_same,
        show mapLookup q.1 (q :: rest) = some q.2 from by simp [mapLookup]]
      cases hopt : mapLookup d q.2 with
      | some ts => simp [hopt]
      | none =>
        have hd : q.1 ∉ mapKeys rest := hk.1
        simp [hopt, mapLookup_riPairs_absent q.1 d rest hd]
    · rw [mapLookup_digestBlock_other i q.1 d q.2 hi,
        show mapLookup i (q :: rest) = mapLookup i rest from by simp [mapLookup, hi], ihr]


theorem mem_mapKeys_riPairs (ri : RegInvImage) (i : ImageName) (d : Digest) :
    ImageDigest.mk i d ∈ mapKeys (riPairs ri)
      ↔ ∃ dt, (i, dt) ∈ ri ∧ d ∈ mapKeys dt := by
  simp only [mem_mapKeys, riPairs, List.mem_flatMap, List.mem_map, Prod.mk.injEq,
    ImageDigest.mk.injEq]
  constructor
  · rintro ⟨v, q, hq, p, hp, ⟨h1, h2⟩, hv⟩
    exact ⟨q.2, by rwa [← h1], p.2, by rwa [← h2]⟩
  · rintro ⟨dt, hdt, ts, hts⟩
    exact ⟨ts, (i, dt), hdt, (d, ts), hts, ⟨rfl, rfl⟩, rfl⟩

theorem mem_mapKeys_mPairs (m : Manifest) (i : ImageName) (d : Digest) :
    ImageDigest.mk i d ∈ mapKeys (mPairs m)
      ↔ ∃ img ∈ m.Images, img.ImageName = i ∧ d ∈ mapKeys img.Dmap := by
  simp only [mem_mapKeys, mPairs, List.mem_flatMap, List.mem_map, Prod.mk.injEq,
    ImageDigest.mk.injEq]
  constructor
  · rintro ⟨v, img, himg, p, hp, ⟨h1, h2⟩, hv⟩
    exact ⟨img, himg, h1, p.2, by rwa [← h2]⟩
  · rintro ⟨img, himg, h1, ts, hts⟩
    exact ⟨ts, img, himg, (d, ts), hts, ⟨h1, rfl⟩, rfl⟩

theorem mem_mapKeys_riTriples (ri : RegInvImage) (i : ImageName) (t : Tag) :
    ImageTag.mk i t ∈ mapKeys (riTriples ri)
      ↔ ∃ dt, (i, dt) ∈ ri ∧ ∃ p ∈ dt, t ∈ p.2 := by
  simp only [mem_mapKeys, riTriples, List.mem_flatMap, List.mem_map, Prod.mk.injEq,
    ImageTag.mk.injEq]
  constructor
  · rintro ⟨v, q, hq, p, hp, tt, htt, ⟨h1, h2⟩, hv⟩
    exact ⟨q.2, by rwa [← h1], p, hp, by rwa [← h2]⟩
  · rintro ⟨dt, hdt, p, hp, ht⟩
    exact ⟨p.1, (i, dt), hdt, p, hp, t, ht, ⟨rfl, rfl⟩, rfl⟩

theorem mem_mapKeys_riidTriples (riid : RegInvImageDigest) (i : ImageName) (t : Tag) :
    ImageTag.mk i t ∈ mapKeys (riidTriples riid)
      ↔ ∃ q ∈ riid, q.1.ImageName = i ∧ t ∈ q.2 := by
  simp only [mem_mapKeys, riidTriples, List.mem_flatMap, List.mem_map, Prod.mk.injEq,
    ImageTag.mk.injEq]
  constructor
  · rintro ⟨v, q, hq, tt, htt, ⟨h1, h2⟩, hv⟩
    exact ⟨q, hq, h1, by rwa [← h2]⟩
  · rintro ⟨q, hq, h1, ht⟩
    exact ⟨q.1.Digest, q, hq, t, ht, ⟨h1, rfl⟩, rfl⟩

theorem mem_mapKeys_mTriples (m : Manifest) (i : ImageName) (t : Tag) :
    ImageTag.mk i t ∈ mapKeys (mTriples m)
      ↔ ∃ img ∈ m.Images, img.ImageName = i ∧ ∃ p ∈ img.Dmap, t ∈ p.2 := by
  simp only [mem_mapKeys, mTriples, List.mem_flatMap, List.mem_map, Prod.mk.injEq,
    ImageTag.mk.injEq]
  constructor
  · rintro ⟨v, img, himg, p, hp, tt, htt, ⟨h1, h2⟩, hv⟩
    exact ⟨img, himg, h1, p, hp, by rwa [← h2]⟩
  · rintro ⟨img, himg, h1, p, hp, ht⟩
    exact ⟨p.1, img, himg, p, hp, t, ht, ⟨h1, rfl⟩, rfl⟩


end WellFormed

/-! ### Claim theorems -/

/-- A concrete registry inventory used to witness theorems whose hypotheses
are the Go map invariant.  It contains a digest with two tags, a digest with
zero tags, and two distinct images. -/
def exInv : RegInvImage :=
  [("a", [("d1", ["v1", "v2"]), ("d2", [])]), ("b", [("d1", ["v1"])])]

/-- C1: for every `RegInvImage` (its two map levels carrying the Go map
invariant of pairwise-distinct keys), converting to `RegInvImageDigest` and
then to `RegInvImageTag` yields the same `RegInvImageTag` map as converting
directly to `RegInvImageTag`. -/
theorem C1_digest_then_tag_roundTrip (ri : RegInvImage)
    (hk : (mapKeys ri).Nodup) (hin : ∀ q ∈ ri, (mapKeys q.2).Nodup) :
    ri.ToRegInvImageDigest.ToRegInvImageTag = ri.ToRegInvImageTag := by
  rw [toRegInvImageDigest_eq_riPairs ri hk hin, riidToRegInvImageTag_eq_foldIns,
    riidTriples_riPairs, ← toRegInvImageTag_eq_foldIns]

/-- Witness for C1 at the concrete inventory `exInv`. -/
theorem C1_digest_then_tag_roundTrip_witness :
    (mapKeys exInv).Nodup ∧ (∀ q ∈ exInv, (mapKeys q.2).Nodup) ∧
      exInv.ToRegInvImageDigest.ToRegInvImageTag = exInv.ToRegInvImageTag :=
  ⟨by decide, by decide, C1_digest_then_tag_roundTrip exInv (by decide) (by decide)⟩

/-- C3: converting a `RegInvImage` or a `Manifest` to `RegInvImageDigest`
preserves every (image, digest) entry of the source as a key of the result —
including digests whose tag sequence is empty — and produces no other key:
`ImageDigest{i, d}` is a key of the result exactly when the source contains
the pair `(i, d)`. -/
theorem C3_digest_keys_preserved :
    (∀ (ri : RegInvImage) (i : ImageName) (d : Digest),
        ImageDigest.mk i d ∈ mapKeys ri.ToRegInvImageDigest
          ↔ ∃ dt, (i, dt) ∈ ri ∧ d ∈ mapKeys dt)
    ∧ (∀ (m : Manifest) (i : ImageName) (d : Digest),
        ImageDigest.mk i d ∈ mapKeys m.ToRegInvImageDigest
          ↔ ∃ img ∈ m.Images, img.ImageName = i ∧ d ∈ mapKeys img.Dmap) := by
  constructor
  · intro ri i d
    rw [toRegInvImageDigest_eq_foldIns, mem_mapKeys_foldIns]
    simp only [mapKeys_nil, List.not_mem_nil, false_or]
    exact mem_mapKeys_riPairs ri i d
  · intro m i d
    rw [manifestToRegInvImageDigest_eq_foldIns, mem_mapKeys_foldIns]
    simp only [mapKeys_nil, List.not_mem_nil, false_or]
    exact mem_mapKeys_mPairs m i d

/-- C6: every `RegInvImageTag` produced by a conversion function associates
each `ImageTag` key with exactly one digest: its key list has no duplicates,
and two bindings of the same key carry the same digest. -/
theorem C6_tag_view_single_pointer :
    (∀ ri : RegInvImage, (mapKeys ri.ToRegInvImageTag).Nodup)
    ∧ (∀ riid : RegInvImageDigest, (mapKeys riid.ToRegInvImageTag).Nodup)
    ∧ (∀ m : Manifest, (mapKeys m.ToRegInvImageTag).Nodup)
    ∧ (∀ (ri : RegInvImage) (k : ImageTag) (d₁ d₂ : Digest),
        (k, d₁) ∈ ri.ToRegInvImageTag → (k, d₂) ∈ ri.ToRegInvImageTag → d₁ = d₂) := by
  have hA : ∀ ri : RegInvImage, (mapKeys ri.ToRegInvImageTag).Nodup := by
    intro ri
    rw [toRegInvImageTag_eq_foldIns]
    exact nodup_mapKeys_foldIns _ _ (by simp)
  refine ⟨hA, fun riid => ?B, fun m => ?C, fun ri k d₁ d₂ h₁ h₂ => ?D⟩
  case B =>
    rw [riidToRegInvImageTag_eq_foldIns]
    exact nodup_mapKeys_foldIns _ _ (by simp)
  case C =>
    rw [manifestToRegInvImageTag_eq_foldIns]
    exact nodup_mapKeys_foldIns _ _ (by simp)
  case D =>
    have e₁ := mapLookup_of_mem_nodup k d₁ _ (hA ri) h₁
    have e₂ := mapLookup_of_mem_nodup k d₂ _ (hA ri) h₂
    rw [e₁] at e₂
    exact Option.some.inj e₂

/-- C8: under the Go map invariant, the converted view
`ri.ToRegInvImageDigest` maps the key `ImageDigest{i, d}` to exactly the tag
sequence `ri[i][d]` (same tags, same order), and has no other keys: the
lookup of `(i, d)` in the view equals the two-level lookup in the source. -/
theorem C8_digest_view_exact (ri : RegInvImage)
    (hk : (mapKeys ri).Nodup) (hin : ∀ q ∈ ri, (mapKeys q.2).Nodup) :
    ∀ (i : ImageName) (d : Digest),
      mapLookup (ImageDigest.mk i d) ri.ToRegInvImageDigest
        = (mapLookup i ri).bind (fun dt => mapLookup d dt) :=
  mapLookup_toRegInvImageDigest ri hk hin

/-- Witness for C8 at the concrete inventory `exInv`. -/
theorem C8_digest_view_exact_witness :
    (mapKeys exInv).Nodup ∧ (∀ q ∈ exInv, (mapKeys q.2).Nodup) ∧
      mapLookup (ImageDigest.mk "a" "d2") exInv.ToRegInvImageDigest
        = (mapLookup "a" exInv).bind (fun dt => mapLookup "d2" dt) :=
  ⟨by decide, by decide, C8_digest_view_exact exInv (by decide) (by decide) "a" "d2"⟩

/-- C9: the tag-indexed view contains the key `(i, t)` exactly when tag `t`
occurs in the tag sequence of some digest of image `i` in the source; in
particular a digest entry with an empty tag sequence contributes no key. -/
theorem C9_tag_view_keys :
    (∀ (ri : RegInvImage) (i : ImageName) (t : Tag),
        ImageTag.mk i t ∈ mapKeys ri.ToRegInvImageTag
          ↔ ∃ dt, (i, dt) ∈ ri ∧ ∃ p ∈ dt, t ∈ p.2)
    ∧ (∀ (riid : RegInvImageDigest) (i : ImageName) (t : Tag),
        ImageTag.mk i t ∈ mapKeys riid.ToRegInvImageTag
          ↔ ∃ q ∈ riid, q.1.ImageName = i ∧ t ∈ q.2) := by
  constructor
  · intro ri i t
    rw [toRegInvImageTag_eq_foldIns, mem_mapKeys_foldIns]
    simp only [mapKeys_nil, List.not_mem_nil, false_or]
    exact mem_mapKeys_riTriples ri i t
  · intro riid i t
    rw [riidToRegInvImageTag_eq_foldIns, mem_mapKeys_foldIns]
    simp only [mapKeys_nil, List.not_mem_nil, false_or]
    exact mem_mapKeys_riidTriples riid i t

/-- Counterexample to C2: at a source in which tag `"v"` is claimed by the
two distinct digests `"d1"` and `"d2"`, `ToRegInvImageTag` does not raise any
consistency error — it returns an ordinary result in which the earlier
binding `"v" ↦ "d1"` has been silently overwritten by `"v" ↦ "d2"`. -/
theorem C2_counterexample :
    RegInvImage.ToRegInvImageTag [("a", [("d1", ["v"]), ("d2", ["v"])])]
        = [(ImageTag.mk "a" "v", "d2")]
    ∧ (ImageTag.mk "a" "v", "d1")
        ∉ RegInvImage.ToRegInvImageTag [("a", [("d1", ["v"]), ("d2", ["v"])])] := by
  constructor
  · decide
  · decide

/-- The value of the last binding for key `k` in a list of bindings, in list
order, if any binding assigns `k` at all. -/
def lastBinding {K V : Type} [DecidableEq K] (k : K) : List (K × V) → Option V
  | [] => none
  | p :: rest =>
    match lastBinding k rest with
    | some v => some v
    | none => if p.1 = k then some p.2 else none

theorem mapLookup_foldIns {K V : Type} [DecidableEq K] (k : K) (acc l : List (K × V)) :
    mapLookup k (foldIns acc l)
      = match lastBinding k l with
        | some v => some v
        | none => mapLookup k acc := by
  induction l generalizing acc with
  | nil => rfl
  | cons p rest ih =>
    rw [foldIns_cons, ih]
    cases hlast : lastBinding k rest with
    | some v => simp [lastBinding, hlast]
    | none =>
      by_cases hk : p.1 = k
      · simp [lastBinding, hlast, hk, hk ▸ mapLookup_mapInsert_self p.1 p.2 acc]
      · simp [lastBinding, hlast, hk, mapLookup_mapInsert_ne k p.1 p.2 acc (Ne.symm hk)]

theorem mapLookup_foldIns_nil {K V : Type} [DecidableEq K] (k : K) (l : List (K × V)) :
    mapLookup k (foldIns [] l) = lastBinding k l := by
  rw [mapLookup_foldIns]
  cases lastBinding k l <;> rfl

/-- C2 as amended: the conversions to `RegInvImageTag` perform no consistency
check at all (their result type has no error channel, so no error is ever
raised).  For every source structure — any `RegInvImage`, any `Manifest`
(duplicate image names included), any `RegInvImageDigest` — and every
`ImageTag` key, the resulting view holds exactly the digest of the
last-processed binding for that key in iteration order: every earlier
assignment of the same key is silently overwritten, and a key never assigned
is absent. -/
theorem C2_overwrite_last_wins :
    (∀ (ri : RegInvImage) (it : ImageTag),
        mapLookup it ri.ToRegInvImageTag = lastBinding it (riTriples ri))
    ∧ (∀ (m : Manifest) (it : ImageTag),
        mapLookup it m.ToRegInvImageTag = lastBinding it (mTriples m))
    ∧ (∀ (riid : RegInvImageDigest) (it : ImageTag),
        mapLookup it riid.ToRegInvImageTag = lastBinding it (riidTriples riid)) := by
  refine ⟨fun ri it => ?A, fun m it => ?B, fun riid it => ?C⟩
  case A =>
    rw [toRegInvImageTag_eq_foldIns]
    exact mapLookup_foldIns_nil it (riTriples ri)
  case B =>
    rw [manifestToRegInvImageTag_eq_foldIns]
    exact mapLookup_foldIns_nil it (mTriples m)
  case C =>
    rw [riidToRegInvImageTag_eq_foldIns]
    exact mapLookup_foldIns_nil it (riidTriples riid)

/-- Counterexample to C4: the re-indexing is not lossless as stated.  First,
`ToRegInvImageTag` is not injective: the inventory `{"a": {"d": []}}` (a
digest with zero tags) and the empty inventory have the same
`RegInvImageTag` view yet differ as maps.  Second, even taking all converted
views together: the inventory `{"a": {}}` (an image with an empty digest map)
and the empty inventory agree on both the `RegInvImageDigest` view and the
`RegInvImageTag` view, yet their lookups at `"a"` differ. -/
theorem C4_counterexample :
    RegInvImage.ToRegInvImageTag [("a", [("d", [])])]
        = RegInvImage.ToRegInvImageTag []
    ∧ mapLookup "a" ([("a", [("d", [])])] : RegInvImage)
        ≠ mapLookup "a" ([] : RegInvImage)
    ∧ RegInvImage.ToRegInvImageDigest [("a", [])]
        = RegInvImage.ToRegInvImageDigest []
    ∧ RegInvImage.ToRegInvImageTag [("a", [])]
        = RegInvImage.ToRegInvImageTag []
    ∧ mapLookup "a" ([("a", [])] : RegInvImage)
        ≠ mapLookup "a" ([] : RegInvImage) := by
  refine ⟨by decide, by decide, by decide, by decide, by decide⟩

/-- C4 as amended: re-indexing a `RegInvImage` as `RegInvImageDigest` is
lossless — for well-formed inventories, equal digest views (as maps) force
equal two-level lookups `ri[i][d]` at every image and digest — while the
conversions to `RegInvImageTag` lose digests with zero tags and are not
injective. -/
theorem C4_digest_view_lossless (ri₁ ri₂ : RegInvImage)
    (hk₁ : (mapKeys ri₁).Nodup) (hin₁ : ∀ q ∈ ri₁, (mapKeys q.2).Nodup)
    (hk₂ : (mapKeys ri₂).Nodup) (hin₂ : ∀ q ∈ ri₂, (mapKeys q.2).Nodup)
    (h : ∀ k, mapLookup k ri₁.ToRegInvImageDigest = mapLookup k ri₂.ToRegInvImageDigest) :
    ∀ (i : ImageName) (d : Digest),
      (mapLookup i ri₁).bind (fun dt => mapLookup d dt)
        = (mapLookup i ri₂).bind (fun dt => mapLookup d dt) := by
  intro i d
  rw [← mapLookup_toRegInvImageDigest ri₁ hk₁ hin₁ i d,
    ← mapLookup_toRegInvImageDigest ri₂ hk₂ hin₂ i d]
  exact h _

/-- Witness for the amended C4, applying it to the concrete inventory on both
sides. -/
theorem C4_digest_view_lossless_witness :
    (mapKeys exInv).Nodup ∧ (∀ q ∈ exInv, (mapKeys q.2).Nodup) ∧
      (∀ k, mapLookup k exInv.ToRegInvImageDigest = mapLookup k exInv.ToRegInvImageDigest) ∧
      (mapLookup "a" exInv).bind (fun dt => mapLookup "d1" dt)
        = (mapLookup "a" exInv).bind (fun dt => mapLookup "d1" dt) :=
  ⟨by decide, by decide, fun k => rfl,
    C4_digest_view_lossless exInv exInv (by decide) (by decide) (by decide) (by decide)
      (fun k => rfl) "a" "d1"⟩

/-- The image-name-to-Dmap association list read directly off a manifest's
image slice, in slice order. -/
def imagePairs (m : Manifest) : RegInvImage :=
  m.Images.map (fun img => (img.ImageName, img.Dmap))

/-- Modelled from the spec (claim C5): "the RegInvImage that maps each
Image's ImageName to its Dmap", built with Go map insertion semantics; this
formation is not itself a function of the source, it is the spec's
description of the comparison object. -/
def manifestAsRegInvImage (m : Manifest) : RegInvImage :=
  m.Images.foldl (fun acc img => mapInsert img.ImageName img.Dmap acc) []

theorem mapKeys_imagePairs (m : Manifest) :
    mapKeys (imagePairs m) = m.Images.map Image.ImageName := by
  simp [mapKeys, imagePairs, List.map_map, Function.comp]

theorem manifestAsRegInvImage_eq_imagePairs (m : Manifest)
    (hN : (m.Images.map Image.ImageName).Nodup) :
    manifestAsRegInvImage m = imagePairs m := by
  have : manifestAsRegInvImage m = foldIns [] (imagePairs m) := by
    simp [manifestAsRegInvImage, foldIns, imagePairs, List.foldl_map]
  rw [this, foldIns_nil_of_nodup]
  rw [mapKeys_imagePairs]
  exact hN

theorem manifest_digest_eq_imagePairs (m : Manifest) :
    m.ToRegInvImageDigest = RegInvImage.ToRegInvImageDigest (imagePairs m) := by
  simp only [Manifest.ToRegInvImageDigest, RegInvImage.ToRegInvImageDigest, imagePairs,
    List.foldl_map]

theorem manifest_tag_eq_imagePairs (m : Manifest) :
    m.ToRegInvImageTag = RegInvImage.ToRegInvImageTag (imagePairs m) := by
  simp only [Manifest.ToRegInvImageTag, RegInvImage.ToRegInvImageTag, imagePairs,
    List.foldl_map]

/-- C5: for a manifest whose image entries have pairwise-distinct names,
converting the manifest directly yields the same `RegInvImageDigest` and the
same `RegInvImageTag` as first forming the `RegInvImage` that maps each
image's name to its `Dmap` and converting that with the inventory
conversions. -/
theorem C5_manifest_refines_inventory (m : Manifest)
    (hN : (m.Images.map Image.ImageName).Nodup) :
    m.ToRegInvImageDigest = (manifestAsRegInvImage m).ToRegInvImageDigest
    ∧ m.ToRegInvImageTag = (manifestAsRegInvImage m).ToRegInvImageTag := by
  rw [manifestAsRegInvImage_eq_imagePairs m hN]
  exact ⟨manifest_digest_eq_imagePairs m, manifest_tag_eq_imagePairs m⟩

/-- A concrete manifest with distinct image names, used for witnesses. -/
def exMan : Manifest :=
  Manifest.mk (RegistryNames.mk "gcr.io/src" "gcr.io/dst") ""
    [Image.mk "a" [("d1", ["v1"])], Image.mk "b" [("d2", [])]]

/-- Witness for C5 at the concrete manifest `exMan`. -/
theorem C5_manifest_refines_inventory_witness :
    (exMan.Images.map Image.ImageName).Nodup ∧
      (exMan.ToRegInvImageDigest = (manifestAsRegInvImage exMan).ToRegInvImageDigest
        ∧ exMan.ToRegInvImageTag = (manifestAsRegInvImage exMan).ToRegInvImageTag) :=
  ⟨by decide, C5_manifest_refines_inventory exMan (by decide)⟩

/-! ### Traced conversions (claim C7)

The Go conversion bodies contain two kinds of statements: reads of the
receiver (the `range` loops and the loop variables) and writes to the freshly
allocated result map.  The traced variants make the receiver an explicit
state component threaded through every loop step exactly as the Go body
manipulates it: since no statement of the source assigns into the receiver,
the state component is passed through untouched. -/

def Manifest.ToRegInvImageDigestTraced (m : Manifest) : Manifest × RegInvImageDigest :=
  m.Images.foldl
    (fun st image =>
      image.Dmap.foldl
        (fun st p => (st.1, mapInsert (ImageDigest.mk image.ImageName p.1) p.2 st.2))
        st)
    (m, [])

def Manifest.ToRegInvImageTagTraced (m : Manifest) : Manifest × RegInvImageTag :=
  m.Images.foldl
    (fun st image =>
      image.Dmap.foldl
        (fun st p =>
          p.2.foldl
            (fun st tag => (st.1, mapInsert (ImageTag.mk image.ImageName tag) p.1 st.2))
            st)
        st)
    (m, [])

def RegInvImage.ToRegInvImageDigestTraced (ri : RegInvImage) : RegInvImage × RegInvImageDigest :=
  ri.foldl
    (fun st q =>
      q.2.foldl
        (fun st p => (st.1, mapInsert (ImageDigest.mk q.1 p.1) p.2 st.2))
        st)
    (ri, [])

def RegInvImage.ToRegInvImageTagTraced (ri : RegInvImage) : RegInvImage × RegInvImageTag :=
  ri.foldl
    (fun st q =>
      q.2.foldl
        (fun st p =>
          p.2.foldl
            (fun st tag => (st.1, mapInsert (ImageTag.mk q.1 tag) p.1 st.2))
            st)
        st)
    (ri, [])

def RegInvImageDigest.ToRegInvImageTagTraced (riid : RegInvImageDigest) :
    RegInvImageDigest × RegInvImageTag :=
  riid.foldl
    (fun st q =>
      q.2.foldl
        (fun st tag => (st.1, mapInsert (ImageTag.mk q.1.ImageName tag) q.1.Digest st.2))
        st)
    (riid, [])

section Traced

variable {R : Type}

theorem tracedFold_digestInner (i : ImageName) (dt : DigestTags) (r : R)
    (acc : RegInvImageDigest) :
    dt.foldl (fun st p => (st.1, mapInsert (ImageDigest.mk i p.1) p.2 st.2)) (r, acc)
      = (r, dt.foldl (fun riid p => mapInsert (ImageDigest.mk i p.1) p.2 riid) acc) := by
  induction dt generalizing acc with
  | nil => rfl
  | cons p ps ih => exact ih _

theorem tracedFold_tagInner (i : ImageName) (d : Digest) (ts : TagSlice) (r : R)
    (acc : RegInvImageTag) :
    ts.foldl (fun st tag => (st.1, mapInsert (ImageTag.mk i tag) d st.2)) (r, acc)
      = (r, ts.foldl (fun riit tag => mapInsert (ImageTag.mk i tag) d riit) acc) := by
  induction ts generalizing acc with
  | nil => rfl
  | cons t ts ih => exact ih _

theorem tracedFold_tagMid (i : ImageName) (dt : DigestTags) (r : R) (acc : RegInvImageTag) :
    dt.foldl
        (fun st p =>
          p.2.foldl (fun st tag => (st.1, mapInsert (ImageTag.mk i tag) p.1 st.2)) st)
        (r, acc)
      = (r, dt.foldl
          (fun riit p =>
            p.2.foldl (fun riit tag => mapInsert (ImageTag.mk i tag) p.1 riit) riit)
          acc) := by
  induction dt generalizing acc with
  | nil => rfl
  | cons p ps ih =>
    rw [List.foldl_cons, List.foldl_cons, tracedFold_tagInner]
    exact ih _

end Traced

/-- C7: the conversion operations are pure with respect to their receiver:
running the receiver-threaded embedding of each conversion body returns the
receiver unchanged alongside exactly the value of the plain conversion, and
each conversion is a function of the receiver alone (no retained state). -/
theorem C7_conversions_pure :
    (∀ m : Manifest, m.ToRegInvImageDigestTraced = (m, m.ToRegInvImageDigest))
    ∧ (∀ m : Manifest, m.ToRegInvImageTagTraced = (m, m.ToRegInvImageTag))
    ∧ (∀ ri : RegInvImage, ri.ToRegInvImageDigestTraced = (ri, ri.ToRegInvImageDigest))
    ∧ (∀ ri : RegInvImage, ri.ToRegInvImageTagTraced = (ri, ri.ToRegInvImageTag))
    ∧ (∀ riid : RegInvImageDigest,
        riid.ToRegInvImageTagTraced = (riid, riid.ToRegInvImageTag)) := by
  refine ⟨fun m => ?A, fun m => ?B, fun ri => ?C, fun ri => ?D, fun riid => ?E⟩
  case A =>
    rw [Manifest.ToRegInvImageDigestTraced, Manifest.ToRegInvImageDigest]
    generalize m.Images = l
    suffices h : ∀ acc : RegInvImageDigest,
        l.foldl
            (fun st image =>
              image.Dmap.foldl
                (fun st p => (st.1, mapInsert (ImageDigest.mk image.ImageName p.1) p.2 st.2))
                st)
            (m, acc)
          = (m, l.foldl
              (fun riid image =>
                image.Dmap.foldl
                  (fun riid p => mapInsert (ImageDigest.mk image.ImageName p.1) p.2 riid)
                  riid)
              acc) by
      exact h []
    induction l with
    | nil => intro acc; rfl
    | cons image rest ih =>
      intro acc
      rw [List.foldl_cons, List.foldl_cons, tracedFold_digestInner]
      exact ih _
  case B =>
    rw [Manifest.ToRegInvImageTagTraced, Manifest.ToRegInvImageTag]
    generalize m.Images = l
    suffices h : ∀ acc : RegInvImageTag,
        l.foldl
            (fun st image =>
              image.Dmap.foldl
                (fun st p =>
                  p.2.foldl
                    (fun st tag => (st.1, mapInsert (ImageTag.mk image.ImageName tag) p.1 st.2))
                    st)
                st)
            (m, acc)
          = (m, l.foldl
              (fun riit image =>
                image.Dmap.foldl
                  (fun riit p =>
                    p.2.foldl
                      (fun riit tag => mapInsert (ImageTag.mk image.ImageName tag) p.1 riit)
                      riit)
                  riit)
              acc) by
      exact h []
    induction l with
    | nil => intro acc; rfl
    | cons image rest ih =>
      intro acc
      rw [List.foldl_cons, List.foldl_cons, tracedFold_tagMid]
      exact ih _
  case C =>
    rw [RegInvImage.ToRegInvImageDigestTraced, RegInvImage.ToRegInvImageDigest]
    suffices h : ∀ (l : RegInvImage) (acc : RegInvImageDigest),
        l.foldl
            (fun st q =>
              q.2.foldl (fun st p => (st.1, mapInsert (ImageDigest.mk q.1 p.1) p.2 st.2)) st)
            (ri, acc)
          = (ri, l.foldl
              (fun riid q =>
                q.2.foldl (fun riid p => mapInsert (ImageDigest.mk q.1 p.1) p.2 riid) riid)
              acc) by
      exact h ri []
    intro l
    induction l with
    | nil => intro acc; rfl
    | cons q rest ih =>
      intro acc
      rw [List.foldl_cons, List.foldl_cons, tracedFold_digestInner]
      exact ih _
  case D =>
    rw [RegInvImage.ToRegInvImageTagTraced, RegInvImage.ToRegInvImageTag]
    suffices h : ∀ (l : RegInvImage) (acc : RegInvImageTag),
        l.foldl
            (fun st q =>
              q.2.foldl
                (fun st p =>
                  p.2.foldl
                    (fun st tag => (st.1, mapInsert (ImageTag.mk q.1 tag) p.1 st.2)) st)
                st)
            (ri, acc)
          = (ri, l.foldl
              (fun riit q =>
                q.2.foldl
                  (fun riit p =>
                    p.2.foldl (fun riit tag => mapInsert (ImageTag.mk q.1 tag) p.1 riit) riit)
                  riit)
              acc) by
      exact h ri []
    intro l
    induction l with
    | nil => intro acc; rfl
    | cons q rest ih =>
      intro acc
      rw [List.foldl_cons, List.foldl_cons, tracedFold_tagMid]
      exact ih _
  case E =>
    rw [RegInvImageDigest.ToRegInvImageTagTraced, RegInvImageDigest.ToRegInvImageTag]
    suffices h : ∀ (l : RegInvImageDigest) (acc : RegInvImageTag),
        l.foldl
            (fun st q =>
              q.2.foldl
                (fun st tag => (st.1, mapInsert (ImageTag.mk q.1.ImageName tag) q.1.Digest st.2))
                st)
            (riid, acc)
          = (riid, l.foldl
              (fun riit q =>
                q.2.foldl
                  (fun riit tag => mapInsert (ImageTag.mk q.1.ImageName tag) q.1.Digest riit)
                  riit)
              acc) by
      exact h riid []
    intro l
    induction l with
    | nil => intro acc; rfl
    | cons q rest ih =>
      intro acc
      rw [List.foldl_cons, List.foldl_cons, tracedFold_tagInner]
      exact ih _

/-- Cross-view consistency at the `RegInvImage` level, under the Go map
invariant: every binding of the tag view is backed by its digest-view entry. -/
theorem tag_digest_consistent (ri : RegInvImage)
    (hk : (mapKeys ri).Nodup) (hin : ∀ q ∈ ri, (mapKeys q.2).Nodup)
    (it : ImageTag) (d : Digest)
    (h : mapLookup it ri.ToRegInvImageTag = some d) :
    ∃ ts, mapLookup (ImageDigest.mk it.ImageName d) ri.ToRegInvImageDigest = some ts
      ∧ it.Tag ∈ ts := by
  rw [toRegInvImageTag_eq_foldIns] at h
  rcases mapLookup_foldIns_mem it d [] (riTriples ri) h with hmem | hnone
  · rw [riTriples, List.mem_flatMap] at hmem
    obtain ⟨q, hq, hmem⟩ := hmem
    rw [List.mem_flatMap] at hmem
    obtain ⟨p, hp, hmem⟩ := hmem
    rcases List.mem_map.mp hmem with ⟨t, ht, heq⟩
    have hit : ImageTag.mk q.1 t = it := congrArg Prod.fst heq
    have hd : p.1 = d := congrArg Prod.snd heq
    have hname : it.ImageName = q.1 := by rw [← hit]
    have htag : it.Tag = t := by rw [← hit]
    refine ⟨p.2, ?_, ?_⟩
    · rw [hname, mapLookup_toRegInvImageDigest ri hk hin,
        mapLookup_of_mem_nodup q.1 q.2 ri hk hq, ← hd]
      exact mapLookup_of_mem_nodup p.1 p.2 q.2 (hin q hq) hp
    · rw [htag]
      exact ht
  · simp [mapLookup] at hnone

/-- A manifest with two image entries sharing the same name `"n"`, each
claiming digest `"d"` with a different tag — representable because `Images`
is a Go slice. -/
def mDup : Manifest :=
  Manifest.mk (RegistryNames.mk "s" "t") ""
    [Image.mk "n" [("d", ["t1"])], Image.mk "n" [("d", ["t2"])]]

/-- Counterexample to C10: in the duplicate-name manifest `mDup`, the tag
view still maps `("n", "t1")` to `"d"`, but the digest view's entry for
`("n", "d")` was overwritten by the second image entry and no longer contains
`"t1"`. -/
theorem C10_counterexample :
    mapLookup (ImageTag.mk "n" "t1") mDup.ToRegInvImageTag = some "d"
    ∧ mapLookup (ImageDigest.mk "n" "d") mDup.ToRegInvImageDigest = some ["t2"]
    ∧ ("t1" : Tag) ∉ (["t2"] : TagSlice) := by
  refine ⟨by decide, by decide, by decide⟩

/-- C10 as amended: for a manifest whose image entries have pairwise-distinct
names (and whose `Dmap`s carry the Go map invariant), the two derived views
are mutually consistent: every `ImageTag` binding `it ↦ d` of the tag view is
matched by a digest-view entry at `(it.ImageName, d)` whose tag sequence
contains `it.Tag`. -/
theorem C10_tag_entry_in_digest_view (m : Manifest)
    (hN : (m.Images.map Image.ImageName).Nodup)
    (hD : ∀ img ∈ m.Images, (mapKeys img.Dmap).Nodup) :
    ∀ (it : ImageTag) (d : Digest),
      mapLookup it m.ToRegInvImageTag = some d →
      ∃ ts, mapLookup (ImageDigest.mk it.ImageName d) m.ToRegInvImageDigest = some ts
        ∧ it.Tag ∈ ts := by
  intro it d h
  rw [manifest_tag_eq_imagePairs] at h
  rw [manifest_digest_eq_imagePairs]
  refine tag_digest_consistent (imagePairs m) ?hk ?hin it d h
  case hk =>
    rw [mapKeys_imagePairs]
    exact hN
  case hin =>
    intro q hq
    rcases List.mem_map.mp hq with ⟨img, himg, hqe⟩
    have hq2 : q.2 = img.Dmap := by rw [← hqe]
    rw [hq2]
    exact hD img himg

/-- Witness for the amended C10 at the concrete manifest `exMan`. -/
theorem C10_tag_entry_in_digest_view_witness :
    (exMan.Images.map Image.ImageName).Nodup
    ∧ (∀ img ∈ exMan.Images, (mapKeys img.Dmap).Nodup)
    ∧ mapLookup (ImageTag.mk "a" "v1") exMan.ToRegInvImageTag = some "d1"
    ∧ ∃ ts, mapLookup (ImageDigest.mk "a" "d1") exMan.ToRegInvImageDigest = some ts
        ∧ ("v1" : Tag) ∈ ts :=
  ⟨by decide, by decide, by decide,
    C10_tag_entry_in_digest_view exMan (by decide) (by decide)
      (ImageTag.mk "a" "v1") "d1" (by decide)⟩

end Inventory
